import Mathlib

/-!
Shallow embedding of the union-find data structure from `src/lib.rs`
(`pub struct UnionFind` with fields `components`, `parent`, `size` and
operations `new`, `union`, `find`, `connected`, `components`, `size`).

Rust's `Vec<usize>` becomes `List Nat`; an indexing panic becomes an
`Option` failure.  The two `while` loops inside `find` are modelled by
fuel-consuming recursions (`rootAux` for the root-finding walk,
`compressAux` for the path-compression walk); the fuel is the length of
the parent array, which is proved sufficient whenever the walk
terminates at all (`rootAux_fuel_length`).  Every operation returns the
state it leaves behind, also when it fails: a failing call corresponds
to a Rust panic, and the second component is the state at the moment of
the panic.
-/

/-- State of the structure: mirrors the Rust `struct UnionFind` with its
fields `components: usize`, `parent: Vec<usize>`, `size: Vec<usize>`. -/
structure UnionFind where
  components : Nat
  parent : List Nat
  size : List Nat
  deriving DecidableEq, Repr

/-- The first loop of `UnionFind::find`:
`let mut r = p; while r != self.parent[r] { r = self.parent[r]; }`.
Returns `none` when the indexing panics or the fuel runs out. -/
def rootAux : Nat → List Nat → Nat → Option Nat
  | 0, _, _ => none
  | fuel + 1, par, r =>
    match par[r]? with
    | none => none
    | some pr => if r = pr then some r else rootAux fuel par pr

/-- The second loop of `UnionFind::find` (path compression):
`while p != self.parent[p] { let pp = self.parent[p]; self.parent[p] = r; p = pp; }`.
Returns the updated parent array. -/
def compressAux : Nat → List Nat → Nat → Nat → Option (List Nat)
  | 0, _, _, _ => none
  | fuel + 1, par, p, r =>
    match par[p]? with
    | none => none
    | some pp => if p = pp then some par else compressAux fuel (par.set p r) pp r

/-- Mirrors `UnionFind::new(n)`: `components: n, parent: (0..n).collect(), size: vec![1; n]`. -/
def UnionFind.new (n : Nat) : UnionFind :=
  { components := n, parent := List.range n, size := List.replicate n 1 }

/-- Mirrors `UnionFind::find(&mut self, p)`.  The first component is the
returned representative (`none` on panic), the second the state after
the call (unchanged when the panic happens before any write). -/
def UnionFind.find (uf : UnionFind) (p : Nat) : Option Nat × UnionFind :=
  match rootAux uf.parent.length uf.parent p with
  | none => (none, uf)
  | some r =>
    match compressAux uf.parent.length uf.parent p r with
    | none => (none, uf)
    | some par => (some r, { uf with parent := par })

/-- Mirrors `UnionFind::union(&mut self, p, q)`: two `find` calls, the
`i == j` early return, the union-by-size branch on `size[i] < size[j]`,
and the `components -= 1` decrement.  The first component is `some ()`
when the call completes, `none` when it panics; the second component is
the state at exit (it keeps the mutations `find(p)`/`find(q)` already
made when a later step panics). -/
def UnionFind.union (uf : UnionFind) (p q : Nat) : Option Unit × UnionFind :=
  match uf.find p with
  | (none, uf1) => (none, uf1)
  | (some i, uf1) =>
    match uf1.find q with
    | (none, uf2) => (none, uf2)
    | (some j, uf2) =>
      if i = j then (some (), uf2)
      else
        match uf2.size[i]?, uf2.size[j]? with
        | some si, some sj =>
          if si < sj then
            (some (), { components := uf2.components - 1,
                        parent := uf2.parent.set i j,
                        size := uf2.size.set j (sj + si) })
          else
            (some (), { components := uf2.components - 1,
                        parent := uf2.parent.set j i,
                        size := uf2.size.set i (si + sj) })
        | _, _ => (none, uf2)

/-- Mirrors `UnionFind::connected(&mut self, p, q)`: `self.find(p) == self.find(q)`. -/
def UnionFind.connected (uf : UnionFind) (p q : Nat) : Option Bool × UnionFind :=
  match uf.find p with
  | (none, uf1) => (none, uf1)
  | (some i, uf1) =>
    match uf1.find q with
    | (none, uf2) => (none, uf2)
    | (some j, uf2) => (some (decide (i = j)), uf2)

/-- Mirrors `UnionFind::size(&self)`: `self.parent.len()`.  (The Rust
method shares its name with the `size` field; here it is `size'`.) -/
def UnionFind.size' (uf : UnionFind) : Nat :=
  uf.parent.length

/-- Ghost companion of `rootAux`: the list of nodes visited by the
root-finding walk, in order, ending at the root. -/
def chainAux : Nat → List Nat → Nat → Option (List Nat)
  | 0, _, _ => none
  | fuel + 1, par, r =>
    match par[r]? with
    | none => none
    | some pr => if r = pr then some [r] else (chainAux fuel par pr).map (r :: ·)

/-- The set of representatives: indices carrying a parent self-loop. -/
def roots (par : List Nat) : Finset Nat :=
  (Finset.range par.length).filter (fun x => par[x]? = some x)

/-- The root of `x` as computed by the first loop of `find`, with the
fuel `find` actually uses. -/
def rootD (uf : UnionFind) (x : Nat) : Option Nat :=
  rootAux uf.parent.length uf.parent x

/-- Well-formedness invariant of a union-find state: the two arrays have
equal length, parent entries are in range, the root-finding walk
terminates from every element, and the `components` counter equals the
number of representatives. -/
structure WF (uf : UnionFind) : Prop where
  sz_len : uf.size.length = uf.parent.length
  par_lt : ∀ (k v : Nat), uf.parent[k]? = some v → v < uf.parent.length
  reach : ∀ x, x < uf.parent.length → (rootD uf x).isSome
  comp : uf.components = (roots uf.parent).card

/-- One call of the public mutating API, for stating properties of
operation sequences. -/
inductive Op where
  | find : Nat → Op
  | union : Nat → Nat → Op
  | connected : Nat → Nat → Op
  deriving DecidableEq, Repr

/-- State left behind by one call. -/
def step (uf : UnionFind) : Op → UnionFind
  | .find p => (uf.find p).2
  | .union p q => (uf.union p q).2
  | .connected p q => (uf.connected p q).2

/-- Value returned by one call, encoded uniformly: `find` returns its
representative, `union` returns `0`, `connected` returns `1`/`0` for
true/false; `none` is a panic. -/
def stepOut (uf : UnionFind) : Op → Option Nat
  | .find p => (uf.find p).1
  | .union p q => ((uf.union p q).1).map (fun _ => 0)
  | .connected p q => ((uf.connected p q).1).map (fun b => cond b 1 0)

/-- State after a sequence of calls. -/
def runOps (uf : UnionFind) : List Op → UnionFind
  | [] => uf
  | op :: ops => runOps (step uf op) ops

/-- Trace of a sequence of calls: the return value of every call in
order, and the final state. -/
def trace (uf : UnionFind) : List Op → List (Option Nat) × UnionFind
  | [] => ([], uf)
  | op :: ops => (stepOut uf op :: (trace (step uf op) ops).1, (trace (step uf op) ops).2)

/-- States reachable from some `new n` by in-range calls. -/
inductive Reachable : UnionFind → Prop where
  | new (n : Nat) : Reachable (UnionFind.new n)
  | find (uf : UnionFind) (p : Nat) (h : Reachable uf) (hp : p < uf.size') :
      Reachable (uf.find p).2
  | union (uf : UnionFind) (p q : Nat) (h : Reachable uf)
      (hp : p < uf.size') (hq : q < uf.size') : Reachable (uf.union p q).2
  | connected (uf : UnionFind) (p q : Nat) (h : Reachable uf)
      (hp : p < uf.size') (hq : q < uf.size') : Reachable (uf.connected p q).2

theorem rootAux_zero (par : List Nat) (x : Nat) : rootAux 0 par x = none := rfl

theorem rootAux_succ_none {par : List Nat} {x : Nat} (hx : par[x]? = none) (f : Nat) :
    rootAux (f + 1) par x = none := by
  rw [rootAux, hx]

theorem rootAux_succ_some {par : List Nat} {x pr : Nat} (hx : par[x]? = some pr) (f : Nat) :
    rootAux (f + 1) par x = if x = pr then some x else rootAux f par pr := by
  rw [rootAux, hx]

theorem compressAux_zero (par : List Nat) (p r : Nat) : compressAux 0 par p r = none := rfl

theorem compressAux_succ_none {par : List Nat} {p : Nat} (hp : par[p]? = none) (f r : Nat) :
    compressAux (f + 1) par p r = none := by
  rw [compressAux, hp]

theorem compressAux_succ_some {par : List Nat} {p pp : Nat} (hp : par[p]? = some pp) (f r : Nat) :
    compressAux (f + 1) par p r =
      if p = pp then some par else compressAux f (par.set p r) pp r := by
  rw [compressAux, hp]

theorem chainAux_zero (par : List Nat) (x : Nat) : chainAux 0 par x = none := rfl

theorem chainAux_succ_none {par : List Nat} {x : Nat} (hx : par[x]? = none) (f : Nat) :
    chainAux (f + 1) par x = none := by
  rw [chainAux, hx]

theorem chainAux_succ_some {par : List Nat} {x pr : Nat} (hx : par[x]? = some pr) (f : Nat) :
    chainAux (f + 1) par x =
      if x = pr then some [x] else (chainAux f par pr).map (x :: ·) := by
  rw [chainAux, hx]

theorem rootAux_mono {par : List Nat} :
    ∀ {f g x r}, rootAux f par x = some r → f ≤ g → rootAux g par x = some r := by
  intro f
  induction f with
  | zero => intro g x r h _; rw [rootAux_zero] at h; exact Option.noConfusion h
  | succ f ih =>
    intro g x r h hle
    cases g with
    | zero => exact (Nat.not_succ_le_zero f hle).elim
    | succ g =>
      cases hx : par[x]? with
      | none => rw [rootAux_succ_none hx] at h; exact Option.noConfusion h
      | some pr =>
        rw [rootAux_succ_some hx] at h
        rw [rootAux_succ_some hx]
        by_cases hxp : x = pr
        · rwa [if_pos hxp] at h ⊢
        · rw [if_neg hxp] at h ⊢
          exact ih h (Nat.le_of_succ_le_succ hle)

theorem rootAux_det {par : List Nat} {f g x r s}
    (hr : rootAux f par x = some r) (hs : rootAux g par x = some s) : r = s := by
  rcases Nat.le_total f g with h | h
  · have := rootAux_mono hr h; rw [this] at hs; exact Option.some.inj hs
  · have := rootAux_mono hs h; rw [this] at hr; exact (Option.some.inj hr).symm

theorem rootAux_self {par : List Nat} :
    ∀ {f x r}, rootAux f par x = some r → par[r]? = some r := by
  intro f
  induction f with
  | zero => intro x r h; rw [rootAux_zero] at h; exact Option.noConfusion h
  | succ f ih =>
    intro x r h
    cases hx : par[x]? with
    | none => rw [rootAux_succ_none hx] at h; exact Option.noConfusion h
    | some pr =>
      rw [rootAux_succ_some hx] at h
      by_cases hxp : x = pr
      · rw [if_pos hxp] at h
        obtain rfl := Option.some.inj h
        rw [hx, hxp]
      · rw [if_neg hxp] at h
        exact ih h

theorem rootAux_lt {par : List Nat} {f x r} (h : rootAux f par x = some r) :
    r < par.length := by
  have := rootAux_self h
  exact (List.getElem?_eq_some.mp this).1

theorem rootAux_of_self {par : List Nat} {f x} (hx : par[x]? = some x) :
    rootAux (f + 1) par x = some x := by
  rw [rootAux_succ_some hx, if_pos rfl]

theorem chainAux_mono {par : List Nat} :
    ∀ {f g x c}, chainAux f par x = some c → f ≤ g → chainAux g par x = some c := by
  intro f
  induction f with
  | zero => intro g x c h _; rw [chainAux_zero] at h; exact Option.noConfusion h
  | succ f ih =>
    intro g x c h hle
    cases g with
    | zero => exact (Nat.not_succ_le_zero f hle).elim
    | succ g =>
      cases hx : par[x]? with
      | none => rw [chainAux_succ_none hx] at h; exact Option.noConfusion h
      | some pr =>
        rw [chainAux_succ_some hx] at h
        rw [chainAux_succ_some hx]
        by_cases hxp : x = pr
        · rwa [if_pos hxp] at h ⊢
        · rw [if_neg hxp] at h ⊢
          obtain ⟨c0, hc0, rfl⟩ := Option.map_eq_some'.mp h
          rw [Option.map_eq_some']
          exact ⟨c0, ih hc0 (Nat.le_of_succ_le_succ hle), rfl⟩

theorem chainAux_det {par : List Nat} {f g x c d}
    (hc : chainAux f par x = some c) (hd : chainAux g par x = some d) : c = d := by
  rcases Nat.le_total f g with h | h
  · have := chainAux_mono hc h; rw [this] at hd; exact Option.some.inj hd
  · have := chainAux_mono hd h; rw [this] at hc; exact (Option.some.inj hc).symm

theorem chainAux_cons {par : List Nat} {f x c} (h : chainAux f par x = some c) :
    ∃ c0, c = x :: c0 := by
  cases f with
  | zero => rw [chainAux_zero] at h; exact Option.noConfusion h
  | succ f =>
    cases hx : par[x]? with
    | none => rw [chainAux_succ_none hx] at h; exact Option.noConfusion h
    | some pr =>
      rw [chainAux_succ_some hx] at h
      by_cases hxp : x = pr
      · rw [if_pos hxp] at h
        exact ⟨[], (Option.some.inj h).symm⟩
      · rw [if_neg hxp] at h
        obtain ⟨c0, _, rfl⟩ := Option.map_eq_some'.mp h
        exact ⟨c0, rfl⟩

theorem chainAux_suffix {par : List Nat} :
    ∀ {f x c}, chainAux f par x = some c →
      ∀ z ∈ c, ∃ c', chainAux f par z = some c' ∧ c' <:+ c := by
  intro f
  induction f with
  | zero => intro x c h; rw [chainAux_zero] at h; exact Option.noConfusion h
  | succ f ih =>
    intro x c h z hz
    cases hx : par[x]? with
    | none => rw [chainAux_succ_none hx] at h; exact Option.noConfusion h
    | some pr =>
      rw [chainAux_succ_some hx] at h
      by_cases hxp : x = pr
      · rw [if_pos hxp] at h
        obtain rfl := Option.some.inj h.symm
        rcases List.mem_singleton.mp hz with rfl
        exact ⟨[z], by rw [chainAux_succ_some hx, if_pos hxp], List.suffix_refl _⟩
      · rw [if_neg hxp] at h
        obtain ⟨c0, hc0, rfl⟩ := Option.map_eq_some'.mp h
        rcases List.mem_cons.mp hz with rfl | hz0
        · refine ⟨z :: c0, ?_, List.suffix_refl _⟩
          rw [chainAux_succ_some hx, if_neg hxp, hc0]
          rfl
        · obtain ⟨c', hc', hsuf⟩ := ih hc0 z hz0
          exact ⟨c', chainAux_mono hc' (Nat.le_succ f), hsuf.trans (List.suffix_cons _ _)⟩

theorem chainAux_nodup {par : List Nat} :
    ∀ {f x c}, chainAux f par x = some c → c.Nodup := by
  intro f
  induction f with
  | zero => intro x c h; rw [chainAux_zero] at h; exact Option.noConfusion h
  | succ f ih =>
    intro x c h
    cases hx : par[x]? with
    | none => rw [chainAux_succ_none hx] at h; exact Option.noConfusion h
    | some pr =>
      rw [chainAux_succ_some hx] at h
      by_cases hxp : x = pr
      · rw [if_pos hxp] at h
        obtain rfl := Option.some.inj h.symm
        exact List.nodup_singleton x
      · rw [if_neg hxp] at h
        obtain ⟨c0, hc0, rfl⟩ := Option.map_eq_some'.mp h
        refine List.nodup_cons.mpr ⟨?_, ih hc0⟩
        intro hmem
        obtain ⟨c', hc', hsuf⟩ := chainAux_suffix hc0 x hmem
        have hdet : c' = x :: c0 :=
          chainAux_det hc' (by rw [chainAux_succ_some hx, if_neg hxp, hc0]; rfl)
        have := hsuf.length_le
        rw [hdet] at this
        simp at this

theorem chainAux_mem_lt {par : List Nat} :
    ∀ {f x c}, chainAux f par x = some c → ∀ z ∈ c, z < par.length := by
  intro f
  induction f with
  | zero => intro x c h; rw [chainAux_zero] at h; exact Option.noConfusion h
  | succ f ih =>
    intro x c h z hz
    cases hx : par[x]? with
    | none => rw [chainAux_succ_none hx] at h; exact Option.noConfusion h
    | some pr =>
      have hxlt : x < par.length := (List.getElem?_eq_some.mp hx).1
      rw [chainAux_succ_some hx] at h
      by_cases hxp : x = pr
      · rw [if_pos hxp] at h
        obtain rfl := Option.some.inj h.symm
        rcases List.mem_singleton.mp hz with rfl
        exact hxlt
      · rw [if_neg hxp] at h
        obtain ⟨c0, hc0, rfl⟩ := Option.map_eq_some'.mp h
        rcases List.mem_cons.mp hz with rfl | hz0
        · exact hxlt
        · exact ih hc0 z hz0

theorem chainAux_length_le {par : List Nat} {f x c} (h : chainAux f par x = some c) :
    c.length ≤ par.length := by
  have hnd : c.Nodup := chainAux_nodup h
  have hsub : c.toFinset ⊆ Finset.range par.length := by
    intro z hz
    exact Finset.mem_range.mpr (chainAux_mem_lt h z (List.mem_toFinset.mp hz))
  calc c.length = c.toFinset.card := (List.toFinset_card_of_nodup hnd).symm
    _ ≤ (Finset.range par.length).card := Finset.card_le_card hsub
    _ = par.length := Finset.card_range _

theorem chainAux_root {par : List Nat} :
    ∀ {f x c}, chainAux f par x = some c →
      ∃ r, rootAux c.length par x = some r ∧ rootAux f par x = some r := by
  intro f
  induction f with
  | zero => intro x c h; rw [chainAux_zero] at h; exact Option.noConfusion h
  | succ f ih =>
    intro x c h
    cases hx : par[x]? with
    | none => rw [chainAux_succ_none hx] at h; exact Option.noConfusion h
    | some pr =>
      rw [chainAux_succ_some hx] at h
      by_cases hxp : x = pr
      · rw [if_pos hxp] at h
        obtain rfl := Option.some.inj h.symm
        subst hxp
        exact ⟨x, rootAux_of_self hx, rootAux_of_self hx⟩
      · rw [if_neg hxp] at h
        obtain ⟨c0, hc0, rfl⟩ := Option.map_eq_some'.mp h
        obtain ⟨r, hr1, hr2⟩ := ih hc0
        refine ⟨r, ?_, ?_⟩
        · have hlen : (x :: c0).length = c0.length + 1 := rfl
          rw [hlen, rootAux_succ_some hx, if_neg hxp]
          exact hr1
        · rw [rootAux_succ_some hx, if_neg hxp]
          exact hr2

theorem rootAux_chain {par : List Nat} :
    ∀ {f x r}, rootAux f par x = some r → ∃ c, chainAux f par x = some c := by
  intro f
  induction f with
  | zero => intro x r h; rw [rootAux_zero] at h; exact Option.noConfusion h
  | succ f ih =>
    intro x r h
    cases hx : par[x]? with
    | none => rw [rootAux_succ_none hx] at h; exact Option.noConfusion h
    | some pr =>
      rw [rootAux_succ_some hx] at h
      by_cases hxp : x = pr
      · exact ⟨[x], by rw [chainAux_succ_some hx, if_pos hxp]⟩
      · rw [if_neg hxp] at h
        obtain ⟨c, hc⟩ := ih h
        exact ⟨x :: c, by rw [chainAux_succ_some hx, if_neg hxp, hc]; rfl⟩

theorem rootAux_fuel_length {par : List Nat} {f x r} (h : rootAux f par x = some r) :
    rootAux par.length par x = some r := by
  obtain ⟨c, hc⟩ := rootAux_chain h
  obtain ⟨r', hr1, hr2⟩ := chainAux_root hc
  obtain rfl : r' = r := rootAux_det hr2 h
  exact rootAux_mono hr1 (chainAux_length_le hc)

theorem rootAux_set_preserved {par : List Nat} {p pp r f0 : Nat}
    (hp : par[p]? = some pp) (hne : p ≠ pp) (hroot : rootAux f0 par pp = some r) :
    ∀ {g x s}, rootAux g par x = some s → rootAux g (par.set p r) x = some s := by
  intro g
  induction g with
  | zero => intro x s h; rw [rootAux_zero] at h; exact Option.noConfusion h
  | succ g ih =>
    intro x s h
    cases hx : par[x]? with
    | none => rw [rootAux_succ_none hx] at h; exact Option.noConfusion h
    | some y =>
      rw [rootAux_succ_some hx] at h
      by_cases hxy : x = y
      · rw [if_pos hxy] at h
        have hsx : x = s := Option.some.inj h
        have hxp : x ≠ p := by
          intro hxp
          have h1 : par[x]? = some pp := by rw [hxp]; exact hp
          have h2 : y = pp := Option.some.inj (hx.symm.trans h1)
          exact hne (by rw [← hxp, ← h2]; exact hxy)
        have hx' : (par.set p r)[x]? = some x := by
          rw [List.getElem?_set_ne (fun hh => hxp hh.symm), hx, hxy]
        rw [← hsx]
        exact rootAux_of_self hx'
      · rw [if_neg hxy] at h
        by_cases hxp : x = p
        · rw [hxp] at hx
          have hy : y = pp := Option.some.inj (hx.symm.trans hp)
          rw [hy] at h
          have hsr : s = r := rootAux_det h hroot
          rw [hxp, hsr]
          have hplt : p < par.length := (List.getElem?_eq_some.mp hp).1
          have hp' : (par.set p r)[p]? = some r := List.getElem?_set_self hplt
          by_cases hpr : p = r
          · rw [← hpr] at hp' ⊢
            exact rootAux_of_self hp'
          · rw [rootAux_succ_some hp', if_neg hpr]
            cases g with
            | zero => rw [rootAux_zero] at h; exact Option.noConfusion h
            | succ g =>
              have hr' : (par.set p r)[r]? = some r := by
                rw [List.getElem?_set_ne hpr]
                exact rootAux_self hroot
              exact rootAux_of_self hr'
        · have hx' : (par.set p r)[x]? = some y := by
            rw [List.getElem?_set_ne (fun hh => hxp hh.symm), hx]
          rw [rootAux_succ_some hx', if_neg hxy]
          exact ih h

theorem compressAux_spec {f : Nat} : ∀ {par : List Nat} {p r : Nat},
    rootAux f par p = some r →
      ∃ par', compressAux f par p r = some par' ∧
        par'.length = par.length ∧
        (∀ (x : Nat), par'[x]? = some r ∨ par'[x]? = par[x]?) ∧
        (∀ {g x s}, rootAux g par x = some s → rootAux g par' x = some s) ∧
        (∀ (x : Nat), par[x]? = some x ↔ par'[x]? = some x) := by
  induction f with
  | zero => intro par p r h; rw [rootAux_zero] at h; exact Option.noConfusion h
  | succ f ih =>
    intro par p r h
    cases hp : par[p]? with
    | none => rw [rootAux_succ_none hp] at h; exact Option.noConfusion h
    | some pp =>
      rw [rootAux_succ_some hp] at h
      by_cases hppq : p = pp
      · rw [if_pos hppq] at h
        refine ⟨par, ?_, rfl, fun x => Or.inr rfl, fun {g x s} hh => hh, fun x => Iff.rfl⟩
        rw [compressAux_succ_some hp, if_pos hppq]
      · rw [if_neg hppq] at h
        have hplt : p < par.length := (List.getElem?_eq_some.mp hp).1
        have pres1 : ∀ {g x s}, rootAux g par x = some s →
            rootAux g (par.set p r) x = some s :=
          rootAux_set_preserved hp hppq h
        have h1 : rootAux f (par.set p r) pp = some r := pres1 h
        obtain ⟨par', hc, hlen, hentry, pres2, hroots⟩ := ih h1
        refine ⟨par', ?_, ?_, ?_, ?_, ?_⟩
        · rw [compressAux_succ_some hp, if_neg hppq]
          exact hc
        · rw [hlen, List.length_set]
        · intro x
          rcases hentry x with hcase | hcase
          · exact Or.inl hcase
          · by_cases hxp : x = p
            · rw [hcase, hxp, List.getElem?_set_self hplt]
              exact Or.inl rfl
            · rw [hcase, List.getElem?_set_ne (fun hh => hxp hh.symm)]
              exact Or.inr rfl
        · intro g x s hh
          exact pres2 (pres1 hh)
        · intro x
          constructor
          · intro hh
            have hxp : x ≠ p := by
              intro hxp
              have h1 : par[p]? = some x := by rw [← hxp]; exact hh
              have h2 : pp = x := Option.some.inj (hp.symm.trans h1)
              exact hppq (by rw [hxp] at h2; exact h2.symm)
            exact (hroots x).mp
              (by rw [List.getElem?_set_ne (fun hh2 => hxp hh2.symm)]; exact hh)
          · intro hh
            have h2 := (hroots x).mpr hh
            by_cases hxp : x = p
            · rw [hxp, List.getElem?_set_self hplt] at h2
              have hrp : r = p := Option.some.inj h2
              have hself := rootAux_self h
              rw [hrp] at hself
              have : pp = p := Option.some.inj (hp.symm.trans hself)
              exact absurd this.symm hppq
            · rwa [List.getElem?_set_ne (fun hh2 => hxp hh2.symm)] at h2

theorem chainAux_set_not_mem {par : List Nat} {x v : Nat} :
    ∀ {f y c}, chainAux f par y = some c → x ∉ c → chainAux f (par.set x v) y = some c := by
  intro f
  induction f with
  | zero => intro y c h _; rw [chainAux_zero] at h; exact Option.noConfusion h
  | succ f ih =>
    intro y c h hx
    cases hy : par[y]? with
    | none => rw [chainAux_succ_none hy] at h; exact Option.noConfusion h
    | some pry =>
      have hyc : ∃ c0, c = y :: c0 := by
        rw [chainAux_succ_some hy] at h
        by_cases hyp : y = pry
        · rw [if_pos hyp] at h; exact ⟨[], (Option.some.inj h).symm⟩
        · rw [if_neg hyp] at h
          obtain ⟨c0, _, rfl⟩ := Option.map_eq_some'.mp h
          exact ⟨c0, rfl⟩
      obtain ⟨c0, rfl⟩ := hyc
      have hyx : y ≠ x := fun hh => hx (hh ▸ List.mem_cons_self y c0)
      have hy' : (par.set x v)[y]? = some pry := by
        rw [List.getElem?_set_ne hyx.symm, hy]
      rw [chainAux_succ_some hy] at h
      rw [chainAux_succ_some hy']
      by_cases hyp : y = pry
      · rwa [if_pos hyp] at h ⊢
      · rw [if_neg hyp] at h ⊢
        obtain ⟨c1, hc1, hmap⟩ := Option.map_eq_some'.mp h
        obtain rfl : c1 = c0 := (List.cons.inj hmap).2
        rw [ih hc1 (fun hh => hx (List.mem_cons_of_mem y hh))]
        rfl

theorem compressAux_sets_chain {f : Nat} : ∀ {par : List Nat} {p r : Nat} {c par' : List Nat},
    rootAux f par p = some r → chainAux f par p = some c →
      compressAux f par p r = some par' → ∀ x ∈ c, par'[x]? = some r := by
  induction f with
  | zero => intro par p r c par' h _ _; rw [rootAux_zero] at h; exact Option.noConfusion h
  | succ f ih =>
    intro par p r c par' h hcn hcomp x hx
    cases hp : par[p]? with
    | none => rw [rootAux_succ_none hp] at h; exact Option.noConfusion h
    | some pp =>
      rw [rootAux_succ_some hp] at h
      rw [chainAux_succ_some hp] at hcn
      rw [compressAux_succ_some hp] at hcomp
      by_cases hppq : p = pp
      · rw [if_pos hppq] at h hcn hcomp
        obtain rfl : par = par' := Option.some.inj hcomp
        have hcx : [p] = c := Option.some.inj hcn
        have hpr : p = r := Option.some.inj h
        rw [← hcx] at hx
        rcases List.mem_singleton.mp hx with rfl
        rw [hp, ← hpr, hppq]
      · rw [if_neg hppq] at h hcn hcomp
        obtain ⟨c0, hc0, hcmap⟩ := Option.map_eq_some'.mp hcn
        have hplt : p < par.length := (List.getElem?_eq_some.mp hp).1
        have pres1 : ∀ {g y s}, rootAux g par y = some s →
            rootAux g (par.set p r) y = some s :=
          rootAux_set_preserved hp hppq h
        have h1 : rootAux f (par.set p r) pp = some r := pres1 h
        have hchain : chainAux (f + 1) par p = some (p :: c0) := by
          rw [chainAux_succ_some hp, if_neg hppq, hc0]
          rfl
        have hnodup : (p :: c0).Nodup := chainAux_nodup hchain
        have hpnotin : p ∉ c0 := (List.nodup_cons.mp hnodup).1
        have hc1 : chainAux f (par.set p r) pp = some c0 :=
          chainAux_set_not_mem hc0 hpnotin
        rw [← hcmap] at hx
        rcases List.mem_cons.mp hx with rfl | hx0
        · obtain ⟨par'', hc, _, hentry, _, _⟩ := compressAux_spec h1
          obtain rfl : par'' = par' := by
            rw [hc] at hcomp
            exact Option.some.inj hcomp
          rcases hentry x with hcase | hcase
          · exact hcase
          · rw [hcase, List.getElem?_set_self hplt]
        · exact ih h1 hc1 hcomp x hx0

theorem roots_ext {par par' : List Nat} (hlen : par'.length = par.length)
    (h : ∀ (x : Nat), par[x]? = some x ↔ par'[x]? = some x) :
    roots par' = roots par := by
  apply Finset.ext
  intro x
  simp only [roots, Finset.mem_filter, Finset.mem_range, hlen]
  exact and_congr Iff.rfl (h x).symm

theorem mem_roots {par : List Nat} {x : Nat} :
    x ∈ roots par ↔ (x < par.length ∧ par[x]? = some x) := by
  simp [roots, Finset.mem_filter, Finset.mem_range]

theorem find_spec {uf : UnionFind} (hwf : WF uf) {p : Nat} (hp : p < uf.parent.length) :
    ∃ r uf', uf.find p = (some r, uf') ∧
      rootD uf p = some r ∧
      WF uf' ∧
      uf'.parent.length = uf.parent.length ∧
      uf'.size = uf.size ∧
      uf'.components = uf.components ∧
      (∀ (x : Nat), rootD uf' x = rootD uf x) := by
  obtain ⟨r, hr⟩ := Option.isSome_iff_exists.mp (hwf.reach p hp)
  obtain ⟨par', hc, hlen, hentry, pres, hroots⟩ := compressAux_spec hr
  have hufp : ({ uf with parent := par' } : UnionFind).parent = par' := rfl
  have hfind : uf.find p = (some r, { uf with parent := par' }) := by
    have h1 : uf.find p = (match compressAux uf.parent.length uf.parent p r with
        | none => (none, uf)
        | some par => (some r, { uf with parent := par })) := by
      unfold UnionFind.find
      rw [show rootAux uf.parent.length uf.parent p = some r from hr]
    rw [h1, hc]
  have hpres : ∀ (x : Nat), rootD { uf with parent := par' } x = rootD uf x := by
    intro x
    by_cases hx : x < uf.parent.length
    · obtain ⟨s, hs⟩ := Option.isSome_iff_exists.mp (hwf.reach x hx)
      have hs' : rootAux par'.length par' x = some s := by
        rw [hlen]; exact pres hs
      rw [rootD, hufp, hs']
      exact hs.symm
    · have hxge : uf.parent.length ≤ x := Nat.le_of_not_lt hx
      have hx1 : uf.parent[x]? = none := List.getElem?_eq_none hxge
      have hx2 : par'[x]? = none := List.getElem?_eq_none (by rw [hlen]; exact hxge)
      rw [rootD, hufp, rootD]
      cases hfl : uf.parent.length with
      | zero => rw [hlen, hfl, rootAux_zero, rootAux_zero]
      | succ m => rw [hlen, hfl, rootAux_succ_none hx2 m, rootAux_succ_none hx1 m]
  refine ⟨r, { uf with parent := par' }, hfind, hr, ?_, hlen, rfl, rfl, hpres⟩
  constructor
  · show uf.size.length = par'.length
    rw [hwf.sz_len, hlen]
  · intro k v hkv
    have hkv' : par'[k]? = some v := hkv
    show v < par'.length
    rw [hlen]
    rcases hentry k with hcase | hcase
    · rw [hcase] at hkv'
      obtain rfl : r = v := Option.some.inj hkv'
      exact rootAux_lt hr
    · rw [hcase] at hkv'
      exact hwf.par_lt k v hkv'
  · intro x hx
    rw [hpres x]
    apply hwf.reach
    have hx' : x < par'.length := hx
    exact hlen ▸ hx'
  · show uf.components = (roots par').card
    rw [roots_ext hlen hroots]
    exact hwf.comp

theorem rootAux_attach {par : List Nat} {a b : Nat}
    (ha : par[a]? = some a) (hb : par[b]? = some b) (hab : a ≠ b) :
    ∀ {g x s}, rootAux g par x = some s →
      rootAux (g + 1) (par.set b a) x = some (if s = b then a else s) := by
  intro g
  induction g with
  | zero => intro x s h; rw [rootAux_zero] at h; exact Option.noConfusion h
  | succ g ih =>
    intro x s h
    cases hx : par[x]? with
    | none => rw [rootAux_succ_none hx] at h; exact Option.noConfusion h
    | some y =>
      rw [rootAux_succ_some hx] at h
      by_cases hxy : x = y
      · rw [if_pos hxy] at h
        have hsx : x = s := Option.some.inj h
        by_cases hxb : x = b
        · have hblt : b < par.length := (List.getElem?_eq_some.mp hb).1
          have hb' : (par.set b a)[b]? = some a := List.getElem?_set_self hblt
          have hba : b ≠ a := fun hh => hab hh.symm
          rw [← hsx, hxb, if_pos rfl]
          rw [rootAux_succ_some hb', if_neg hba]
          have ha' : (par.set b a)[a]? = some a := by
            rw [List.getElem?_set_ne hba, ha]
          exact rootAux_of_self ha'
        · rw [← hsx, if_neg hxb]
          have hx' : (par.set b a)[x]? = some x := by
            rw [List.getElem?_set_ne (fun hh => hxb hh.symm), hx, ← hxy]
          exact rootAux_of_self hx'
      · rw [if_neg hxy] at h
        have hxb : x ≠ b := by
          intro hh
          rw [hh] at hx
          have hyb : y = b := Option.some.inj (hx.symm.trans hb)
          rw [hh, hyb] at hxy
          exact hxy rfl
        have hx' : (par.set b a)[x]? = some y := by
          rw [List.getElem?_set_ne (fun hh => hxb hh.symm), hx]
        rw [rootAux_succ_some hx', if_neg hxy]
        exact ih h

theorem set_roots_erase {par : List Nat} {a b : Nat}
    (hb : b < par.length) (hab : a ≠ b) (x : Nat) :
    (par.set b a)[x]? = some x ↔ (par[x]? = some x ∧ x ≠ b) := by
  by_cases hxb : x = b
  · rw [hxb, List.getElem?_set_self hb]
    constructor
    · intro hh; exact absurd (Option.some.inj hh) hab
    · rintro ⟨_, hh⟩; exact absurd rfl hh
  · rw [List.getElem?_set_ne (fun hh => hxb hh.symm)]
    exact ⟨fun hh => ⟨hh, hxb⟩, fun hh => hh.1⟩

theorem union_attach_spec {uf2 : UnionFind} (hwf2 : WF uf2) {a b : Nat}
    (ha : uf2.parent[a]? = some a) (hb : uf2.parent[b]? = some b) (hab : a ≠ b)
    {sz : List Nat} (hszlen : sz.length = uf2.size.length) :
    WF (⟨uf2.components - 1, uf2.parent.set b a, sz⟩ : UnionFind) ∧
      (⟨uf2.components - 1, uf2.parent.set b a, sz⟩ : UnionFind).parent.length =
        uf2.parent.length ∧
      (∀ (x s : Nat), rootD uf2 x = some s →
        rootD (⟨uf2.components - 1, uf2.parent.set b a, sz⟩ : UnionFind) x =
          some (if s = b then a else s)) ∧
      (⟨uf2.components - 1, uf2.parent.set b a, sz⟩ : UnionFind).components + 1 =
        uf2.components := by
  have hblt : b < uf2.parent.length := (List.getElem?_eq_some.mp hb).1
  have halt : a < uf2.parent.length := (List.getElem?_eq_some.mp ha).1
  have hlen : (uf2.parent.set b a).length = uf2.parent.length := List.length_set ..
  have hbmem : b ∈ roots uf2.parent := mem_roots.mpr ⟨hblt, hb⟩
  have hcard : 1 ≤ (roots uf2.parent).card :=
    Finset.card_pos.mpr ⟨b, hbmem⟩
  have hmap : ∀ (x s : Nat), rootD uf2 x = some s →
      rootD (⟨uf2.components - 1, uf2.parent.set b a, sz⟩ : UnionFind) x =
        some (if s = b then a else s) := by
    intro x s hs
    have h1 : rootAux (uf2.parent.length + 1) (uf2.parent.set b a) x =
        some (if s = b then a else s) := rootAux_attach ha hb hab hs
    have h2 := rootAux_fuel_length h1
    rw [rootD]
    show rootAux (uf2.parent.set b a).length (uf2.parent.set b a) x = _
    rw [hlen] at h2 ⊢
    exact h2
  have hroots' : roots (uf2.parent.set b a) = (roots uf2.parent).erase b := by
    apply Finset.ext
    intro x
    rw [mem_roots, Finset.mem_erase, mem_roots, hlen, set_roots_erase hblt hab x]
    constructor
    · rintro ⟨h1, h2, h3⟩; exact ⟨h3, h1, h2⟩
    · rintro ⟨h1, h2, h3⟩; exact ⟨h2, h3, h1⟩
  refine ⟨⟨?_, ?_, ?_, ?_⟩, hlen, hmap, ?_⟩
  · show sz.length = (uf2.parent.set b a).length
    rw [hszlen, hwf2.sz_len, hlen]
  · intro k v hkv
    have hkv' : (uf2.parent.set b a)[k]? = some v := hkv
    show v < (uf2.parent.set b a).length
    rw [hlen]
    by_cases hkb : k = b
    · rw [hkb, List.getElem?_set_self hblt] at hkv'
      obtain rfl : a = v := Option.some.inj hkv'
      exact halt
    · rw [List.getElem?_set_ne (fun hh => hkb hh.symm)] at hkv'
      exact hwf2.par_lt k v hkv'
  · intro x hx
    have hx' : x < uf2.parent.length := by
      have : x < (uf2.parent.set b a).length := hx
      rwa [hlen] at this
    obtain ⟨s, hs⟩ := Option.isSome_iff_exists.mp (hwf2.reach x hx')
    rw [hmap x s hs]
    rfl
  · show uf2.components - 1 = (roots (uf2.parent.set b a)).card
    rw [hroots', Finset.card_erase_of_mem hbmem, hwf2.comp]
  · show uf2.components - 1 + 1 = uf2.components
    rw [hwf2.comp]
    omega

theorem connected_spec {uf : UnionFind} (hwf : WF uf) {p q : Nat}
    (hp : p < uf.parent.length) (hq : q < uf.parent.length) :
    ∃ i j uf', uf.connected p q = (some (decide (i = j)), uf') ∧
      rootD uf p = some i ∧ rootD uf q = some j ∧ WF uf' ∧
      uf'.parent.length = uf.parent.length ∧
      uf'.size = uf.size ∧ uf'.components = uf.components ∧
      (∀ (x : Nat), rootD uf' x = rootD uf x) := by
  obtain ⟨i, uf1, hfind1, hrp, hwf1, hlen1, hsz1, hcomp1, hpres1⟩ := find_spec hwf hp
  obtain ⟨j, uf2, hfind2, hrq1, hwf2, hlen2, hsz2, hcomp2, hpres2⟩ :=
    find_spec hwf1 (by rw [hlen1]; exact hq)
  have hrq : rootD uf q = some j := by rw [← hpres1 q]; exact hrq1
  refine ⟨i, j, uf2, ?_, hrp, hrq, hwf2, hlen2.trans hlen1, hsz2.trans hsz1,
    hcomp2.trans hcomp1, fun x => (hpres2 x).trans (hpres1 x)⟩
  unfold UnionFind.connected
  simp only [hfind1, hfind2]

theorem union_spec {uf : UnionFind} (hwf : WF uf) {p q : Nat}
    (hp : p < uf.parent.length) (hq : q < uf.parent.length) :
    ∃ uf', uf.union p q = (some (), uf') ∧ WF uf' ∧
      uf'.parent.length = uf.parent.length ∧
      rootD uf' p = rootD uf' q ∧
      (rootD uf p = rootD uf q →
        uf'.components = uf.components ∧ (∀ (x : Nat), rootD uf' x = rootD uf x)) ∧
      (rootD uf p ≠ rootD uf q → uf'.components + 1 = uf.components) := by
  obtain ⟨i, uf1, hfind1, hrp, hwf1, hlen1, hsz1, hcomp1, hpres1⟩ := find_spec hwf hp
  obtain ⟨j, uf2, hfind2, hrq1, hwf2, hlen2, hsz2, hcomp2, hpres2⟩ :=
    find_spec hwf1 (by rw [hlen1]; exact hq)
  have hrq : rootD uf q = some j := by rw [← hpres1 q]; exact hrq1
  have hrp2 : rootD uf2 p = some i := by rw [hpres2 p, hpres1 p]; exact hrp
  have hrq2 : rootD uf2 q = some j := by rw [hpres2 q, hpres1 q]; exact hrq
  by_cases hij : i = j
  · have huni : uf.union p q = (some (), uf2) := by
      unfold UnionFind.union
      simp only [hfind1, hfind2]
      rw [if_pos hij]
    refine ⟨uf2, huni, hwf2, hlen2.trans hlen1, ?_, ?_, ?_⟩
    · rw [hrp2, hrq2, hij]
    · intro _
      exact ⟨hcomp2.trans hcomp1, fun x => (hpres2 x).trans (hpres1 x)⟩
    · intro hne
      exact absurd (by rw [hrp, hrq, hij]) hne
  · have hrne : rootD uf p ≠ rootD uf q := by
      rw [hrp, hrq]
      intro hh
      exact hij (Option.some.inj hh)
    have hilt : i < uf.parent.length := rootAux_lt hrp
    have hjlt : j < uf.parent.length := rootAux_lt hrq
    have hiszlt : i < uf2.size.length := by
      rw [hsz2, hsz1, hwf.sz_len]; exact hilt
    have hjszlt : j < uf2.size.length := by
      rw [hsz2, hsz1, hwf.sz_len]; exact hjlt
    obtain ⟨si, hsi⟩ : ∃ si, uf2.size[i]? = some si :=
      ⟨_, List.getElem?_eq_getElem hiszlt⟩
    obtain ⟨sj, hsj⟩ : ∃ sj, uf2.size[j]? = some sj :=
      ⟨_, List.getElem?_eq_getElem hjszlt⟩
    have hiroot : uf2.parent[i]? = some i := rootAux_self hrp2
    have hjroot : uf2.parent[j]? = some j := rootAux_self hrq2
    by_cases hlt : si < sj
    · -- size[i] < size[j]: parent[i] = j, i.e. i is attached under j
      have huni : uf.union p q =
          (some (), ⟨uf2.components - 1, uf2.parent.set i j,
            uf2.size.set j (sj + si)⟩) := by
        unfold UnionFind.union
        simp only [hfind1, hfind2]
        rw [if_neg hij, hsi, hsj]
        simp only [if_pos hlt]
      obtain ⟨hwf', hlen', hmap, hdec⟩ :=
        union_attach_spec hwf2 hjroot hiroot (fun hh => hij hh.symm)
          (List.length_set uf2.size j (sj + si))
      refine ⟨_, huni, hwf', ?_, ?_, ?_, ?_⟩
      · rw [hlen', hlen2, hlen1]
      · rw [hmap p i hrp2, hmap q j hrq2, if_pos rfl, if_neg (fun hh => hij hh.symm)]
      · intro hh; exact absurd hh hrne
      · intro _
        rw [hdec, hcomp2, hcomp1]
    · -- otherwise: parent[j] = i, i.e. j is attached under i
      have huni : uf.union p q =
          (some (), ⟨uf2.components - 1, uf2.parent.set j i,
            uf2.size.set i (si + sj)⟩) := by
        unfold UnionFind.union
        simp only [hfind1, hfind2]
        rw [if_neg hij, hsi, hsj]
        simp only [if_neg hlt]
      obtain ⟨hwf', hlen', hmap, hdec⟩ :=
        union_attach_spec hwf2 hiroot hjroot hij
          (List.length_set uf2.size i (si + sj))
      refine ⟨_, huni, hwf', ?_, ?_, ?_, ?_⟩
      · rw [hlen', hlen2, hlen1]
      · rw [hmap p i hrp2, hmap q j hrq2, if_pos rfl, if_neg hij]
      · intro hh; exact absurd hh hrne
      · intro _
        rw [hdec, hcomp2, hcomp1]

theorem compressAux_length : ∀ {f : Nat} {par : List Nat} {p r : Nat} {par' : List Nat},
    compressAux f par p r = some par' → par'.length = par.length := by
  intro f
  induction f with
  | zero => intro par p r par' h; rw [compressAux_zero] at h; exact Option.noConfusion h
  | succ f ih =>
    intro par p r par' h
    cases hp : par[p]? with
    | none => rw [compressAux_succ_none hp] at h; exact Option.noConfusion h
    | some pp =>
      rw [compressAux_succ_some hp] at h
      by_cases hppq : p = pp
      · rw [if_pos hppq] at h
        rw [← Option.some.inj h]
      · rw [if_neg hppq] at h
        rw [ih h, List.length_set]

theorem find_eq_none {uf : UnionFind} {p : Nat}
    (h1 : rootAux uf.parent.length uf.parent p = none) : uf.find p = (none, uf) := by
  unfold UnionFind.find
  rw [h1]

theorem find_eq_fail2 {uf : UnionFind} {p r : Nat}
    (h1 : rootAux uf.parent.length uf.parent p = some r)
    (h2 : compressAux uf.parent.length uf.parent p r = none) : uf.find p = (none, uf) := by
  unfold UnionFind.find
  rw [h1]
  show (match compressAux uf.parent.length uf.parent p r with
    | none => (none, uf)
    | some par => (some r, { uf with parent := par })) = _
  rw [h2]

theorem find_eq_some {uf : UnionFind} {p r : Nat} {par' : List Nat}
    (h1 : rootAux uf.parent.length uf.parent p = some r)
    (h2 : compressAux uf.parent.length uf.parent p r = some par') :
    uf.find p = (some r, { uf with parent := par' }) := by
  unfold UnionFind.find
  rw [h1]
  show (match compressAux uf.parent.length uf.parent p r with
    | none => (none, uf)
    | some par => (some r, { uf with parent := par })) = _
  rw [h2]

theorem find_out_of_range {uf : UnionFind} {p : Nat} (h : uf.parent.length ≤ p) :
    uf.find p = (none, uf) := by
  refine find_eq_none ?_
  cases hfl : uf.parent.length with
  | zero => exact rootAux_zero _ _
  | succ m =>
    refine rootAux_succ_none ?_ m
    exact List.getElem?_eq_none h

theorem find_fail {uf : UnionFind} {p : Nat} (h : (uf.find p).1 = none) :
    (uf.find p).2 = uf := by
  cases h1 : rootAux uf.parent.length uf.parent p with
  | none => rw [find_eq_none h1]
  | some r =>
    cases h2 : compressAux uf.parent.length uf.parent p r with
    | none => rw [find_eq_fail2 h1 h2]
    | some par' =>
      rw [find_eq_some h1 h2] at h
      exact Option.noConfusion h

theorem find_frame (uf : UnionFind) (p : Nat) :
    (uf.find p).2.size = uf.size ∧ (uf.find p).2.components = uf.components ∧
      (uf.find p).2.parent.length = uf.parent.length := by
  cases h1 : rootAux uf.parent.length uf.parent p with
  | none => rw [find_eq_none h1]; exact ⟨rfl, rfl, rfl⟩
  | some r =>
    cases h2 : compressAux uf.parent.length uf.parent p r with
    | none => rw [find_eq_fail2 h1 h2]; exact ⟨rfl, rfl, rfl⟩
    | some par' => rw [find_eq_some h1 h2]; exact ⟨rfl, rfl, compressAux_length h2⟩

theorem connected_eq_fail1 {uf uf1 : UnionFind} {p q : Nat}
    (hf1 : uf.find p = (none, uf1)) : uf.connected p q = (none, uf1) := by
  unfold UnionFind.connected
  rw [hf1]

theorem connected_eq_fail2 {uf uf1 uf2 : UnionFind} {p q i : Nat}
    (hf1 : uf.find p = (some i, uf1)) (hf2 : uf1.find q = (none, uf2)) :
    uf.connected p q = (none, uf2) := by
  unfold UnionFind.connected
  simp only [hf1, hf2]

theorem connected_eq_some {uf uf1 uf2 : UnionFind} {p q i j : Nat}
    (hf1 : uf.find p = (some i, uf1)) (hf2 : uf1.find q = (some j, uf2)) :
    uf.connected p q = (some (decide (i = j)), uf2) := by
  unfold UnionFind.connected
  simp only [hf1, hf2]

theorem union_eq_fail1 {uf uf1 : UnionFind} {p q : Nat}
    (hf1 : uf.find p = (none, uf1)) : uf.union p q = (none, uf1) := by
  unfold UnionFind.union
  rw [hf1]

theorem union_eq_fail2 {uf uf1 uf2 : UnionFind} {p q i : Nat}
    (hf1 : uf.find p = (some i, uf1)) (hf2 : uf1.find q = (none, uf2)) :
    uf.union p q = (none, uf2) := by
  unfold UnionFind.union
  simp only [hf1, hf2]

theorem union_eq_same {uf uf1 uf2 : UnionFind} {p q i j : Nat}
    (hf1 : uf.find p = (some i, uf1)) (hf2 : uf1.find q = (some j, uf2)) (hij : i = j) :
    uf.union p q = (some (), uf2) := by
  unfold UnionFind.union
  simp only [hf1, hf2, hij]
  exact if_pos trivial

theorem union_eq_sz_fail {uf uf1 uf2 : UnionFind} {p q i j : Nat}
    (hf1 : uf.find p = (some i, uf1)) (hf2 : uf1.find q = (some j, uf2)) (hij : i ≠ j)
    (hsz : uf2.size[i]? = none ∨ uf2.size[j]? = none) :
    uf.union p q = (none, uf2) := by
  unfold UnionFind.union
  simp only [hf1, hf2]
  rw [if_neg hij]
  rcases hsz with hsz | hsz
  · rw [hsz]
  · rw [hsz]
    cases uf2.size[i]? <;> rfl

theorem union_eq_merge {uf uf1 uf2 : UnionFind} {p q i j si sj : Nat}
    (hf1 : uf.find p = (some i, uf1)) (hf2 : uf1.find q = (some j, uf2)) (hij : i ≠ j)
    (hsi : uf2.size[i]? = some si) (hsj : uf2.size[j]? = some sj) :
    uf.union p q = (some (),
      if si < sj then
        (⟨uf2.components - 1, uf2.parent.set i j, uf2.size.set j (sj + si)⟩ : UnionFind)
      else
        (⟨uf2.components - 1, uf2.parent.set j i, uf2.size.set i (si + sj)⟩ : UnionFind)) := by
  unfold UnionFind.union
  simp only [hf1, hf2]
  rw [if_neg hij, hsi, hsj]
  show (if si < sj then
      ((some (), (⟨uf2.components - 1, uf2.parent.set i j,
        uf2.size.set j (sj + si)⟩ : UnionFind)) : Option Unit × UnionFind)
    else
      (some (), (⟨uf2.components - 1, uf2.parent.set j i,
        uf2.size.set i (si + sj)⟩ : UnionFind))) = _
  by_cases hlt : si < sj
  · rw [if_pos hlt, if_pos hlt]
  · rw [if_neg hlt, if_neg hlt]

theorem rootAux_start_lt {par : List Nat} {f x r : Nat} (h : rootAux f par x = some r) :
    x < par.length := by
  cases f with
  | zero => rw [rootAux_zero] at h; exact Option.noConfusion h
  | succ f =>
    cases hx : par[x]? with
    | none => rw [rootAux_succ_none hx] at h; exact Option.noConfusion h
    | some y => exact (List.getElem?_eq_some.mp hx).1

theorem find_success_lt {uf : UnionFind} {p : Nat} {i : Nat} {uf1 : UnionFind}
    (h : uf.find p = (some i, uf1)) : p < uf.parent.length := by
  cases h1 : rootAux uf.parent.length uf.parent p with
  | none =>
    rw [find_eq_none h1] at h
    exact Option.noConfusion (congrArg Prod.fst h)
  | some r => exact rootAux_start_lt h1

theorem connected_frame (uf : UnionFind) (p q : Nat) :
    (uf.connected p q).2.size = uf.size ∧ (uf.connected p q).2.components = uf.components := by
  cases hf1 : uf.find p with
  | mk o1 uf1 =>
    have h1 := find_frame uf p
    rw [hf1] at h1
    cases o1 with
    | none =>
      rw [connected_eq_fail1 hf1]
      exact ⟨h1.1, h1.2.1⟩
    | some i =>
      cases hf2 : uf1.find q with
      | mk o2 uf2 =>
        have h2 := find_frame uf1 q
        rw [hf2] at h2
        cases o2 with
        | none =>
          rw [connected_eq_fail2 hf1 hf2]
          exact ⟨h2.1.trans h1.1, h2.2.1.trans h1.2.1⟩
        | some j =>
          rw [connected_eq_some hf1 hf2]
          exact ⟨h2.1.trans h1.1, h2.2.1.trans h1.2.1⟩

theorem union_components_le (uf : UnionFind) (p q : Nat) :
    (uf.union p q).2.components ≤ uf.components := by
  cases hf1 : uf.find p with
  | mk o1 uf1 =>
    have h1 := find_frame uf p
    rw [hf1] at h1
    cases o1 with
    | none =>
      rw [union_eq_fail1 hf1]
      exact Nat.le_of_eq h1.2.1
    | some i =>
      cases hf2 : uf1.find q with
      | mk o2 uf2 =>
        have h2 := find_frame uf1 q
        rw [hf2] at h2
        have hc : uf2.components = uf.components := h2.2.1.trans h1.2.1
        cases o2 with
        | none =>
          rw [union_eq_fail2 hf1 hf2]
          exact Nat.le_of_eq hc
        | some j =>
          by_cases hij : i = j
          · rw [union_eq_same hf1 hf2 hij]
            exact Nat.le_of_eq hc
          · cases hsi : uf2.size[i]? with
            | none =>
              rw [union_eq_sz_fail hf1 hf2 hij (Or.inl hsi)]
              exact Nat.le_of_eq hc
            | some si =>
              cases hsj : uf2.size[j]? with
              | none =>
                rw [union_eq_sz_fail hf1 hf2 hij (Or.inr hsj)]
                exact Nat.le_of_eq hc
              | some sj =>
                rw [union_eq_merge hf1 hf2 hij hsi hsj]
                by_cases hlt : si < sj
                · rw [if_pos hlt]
                  show uf2.components - 1 ≤ uf.components
                  omega
                · rw [if_neg hlt]
                  show uf2.components - 1 ≤ uf.components
                  omega

theorem union_fail_frame {uf : UnionFind} {p q : Nat} (h : (uf.union p q).1 = none) :
    (uf.union p q).2.size = uf.size ∧ (uf.union p q).2.components = uf.components := by
  cases hf1 : uf.find p with
  | mk o1 uf1 =>
    have h1 := find_frame uf p
    rw [hf1] at h1
    cases o1 with
    | none =>
      rw [union_eq_fail1 hf1]
      exact ⟨h1.1, h1.2.1⟩
    | some i =>
      cases hf2 : uf1.find q with
      | mk o2 uf2 =>
        have h2 := find_frame uf1 q
        rw [hf2] at h2
        have hsz : uf2.size = uf.size := h2.1.trans h1.1
        have hc : uf2.components = uf.components := h2.2.1.trans h1.2.1
        cases o2 with
        | none =>
          rw [union_eq_fail2 hf1 hf2]
          exact ⟨hsz, hc⟩
        | some j =>
          by_cases hij : i = j
          · rw [union_eq_same hf1 hf2 hij] at h
            exact Option.noConfusion h
          · cases hsi : uf2.size[i]? with
            | none =>
              rw [union_eq_sz_fail hf1 hf2 hij (Or.inl hsi)]
              exact ⟨hsz, hc⟩
            | some si =>
              cases hsj : uf2.size[j]? with
              | none =>
                rw [union_eq_sz_fail hf1 hf2 hij (Or.inr hsj)]
                exact ⟨hsz, hc⟩
              | some sj =>
                rw [union_eq_merge hf1 hf2 hij hsi hsj] at h
                exact Option.noConfusion h

theorem wf_new (n : Nat) : WF (UnionFind.new n) := by
  constructor
  · show (List.replicate n 1).length = (List.range n).length
    rw [List.length_replicate, List.length_range]
  · intro k v hkv
    have hkv' : (List.range n)[k]? = some v := hkv
    show v < (List.range n).length
    rw [List.length_range]
    have hk : k < n := by
      have := (List.getElem?_eq_some.mp hkv').1
      rwa [List.length_range] at this
    rw [List.getElem?_range hk] at hkv'
    obtain rfl : k = v := Option.some.inj hkv'
    exact hk
  · intro x hx
    have hx' : x < n := by
      have h0 : x < (List.range n).length := hx
      rwa [List.length_range] at h0
    rw [rootD]
    show (rootAux (List.range n).length (List.range n) x).isSome
    rw [List.length_range]
    cases n with
    | zero => exact absurd hx' (Nat.not_lt_zero x)
    | succ m =>
      rw [rootAux_of_self (List.getElem?_range hx')]
      rfl
  · show n = (roots (List.range n)).card
    have hroots : roots (List.range n) = Finset.range n := by
      apply Finset.ext
      intro x
      rw [mem_roots, Finset.mem_range]
      constructor
      · rintro ⟨h1, _⟩
        rwa [List.length_range] at h1
      · intro hx
        exact ⟨by rw [List.length_range]; exact hx, List.getElem?_range hx⟩
    rw [hroots, Finset.card_range]

theorem wf_find_exit {uf : UnionFind} (hwf : WF uf) (p : Nat) : WF (uf.find p).2 := by
  by_cases hp : p < uf.parent.length
  · obtain ⟨r, uf', hfind, _, hwf', _⟩ := find_spec hwf hp
    rw [hfind]
    exact hwf'
  · rw [find_out_of_range (Nat.le_of_not_lt hp)]
    exact hwf

theorem wf_connected_exit {uf : UnionFind} (hwf : WF uf) (p q : Nat) :
    WF (uf.connected p q).2 := by
  cases hf1 : uf.find p with
  | mk o1 uf1 =>
    have hwf1 : WF uf1 := by
      have h0 := wf_find_exit hwf p
      rwa [hf1] at h0
    cases o1 with
    | none =>
      rw [connected_eq_fail1 hf1]
      exact hwf1
    | some i =>
      cases hf2 : uf1.find q with
      | mk o2 uf2 =>
        have hwf2 : WF uf2 := by
          have h0 := wf_find_exit hwf1 q
          rwa [hf2] at h0
        cases o2 with
        | none =>
          rw [connected_eq_fail2 hf1 hf2]
          exact hwf2
        | some j =>
          rw [connected_eq_some hf1 hf2]
          exact hwf2

theorem wf_union_exit {uf : UnionFind} (hwf : WF uf) (p q : Nat) : WF (uf.union p q).2 := by
  by_cases hp : p < uf.parent.length
  · by_cases hq : q < uf.parent.length
    · obtain ⟨uf', huni, hwf', _, _, _, _⟩ := union_spec hwf hp hq
      rw [huni]
      exact hwf'
    · obtain ⟨i, uf1, hfind1, _, hwf1, hlen1, _⟩ := find_spec hwf hp
      have hf2 : uf1.find q = (none, uf1) :=
        find_out_of_range (by rw [hlen1]; exact Nat.le_of_not_lt hq)
      rw [union_eq_fail2 hfind1 hf2]
      exact hwf1
  · rw [union_eq_fail1 (find_out_of_range (Nat.le_of_not_lt hp))]
    exact hwf

theorem wf_step {uf : UnionFind} (hwf : WF uf) (op : Op) : WF (step uf op) := by
  cases op with
  | find p => exact wf_find_exit hwf p
  | union p q => exact wf_union_exit hwf p q
  | connected p q => exact wf_connected_exit hwf p q

theorem wf_runOps : ∀ (ops : List Op) (uf : UnionFind), WF uf → WF (runOps uf ops) := by
  intro ops
  induction ops with
  | nil => intro uf h; exact h
  | cons op ops ih => intro uf h; exact ih _ (wf_step h op)

theorem wf_reachable {uf : UnionFind} (h : Reachable uf) : WF uf := by
  induction h with
  | new n => exact wf_new n
  | find uf p _ hp ih => exact wf_find_exit ih p
  | union uf p q _ hp hq ih => exact wf_union_exit ih p q
  | connected uf p q _ hp hq ih => exact wf_connected_exit ih p q

theorem step_components_le (uf : UnionFind) (op : Op) :
    (step uf op).components ≤ uf.components := by
  cases op with
  | find p => exact Nat.le_of_eq (find_frame uf p).2.1
  | union p q => exact union_components_le uf p q
  | connected p q => exact Nat.le_of_eq (connected_frame uf p q).2

theorem runOps_components_le :
    ∀ (ops : List Op) (uf : UnionFind), (runOps uf ops).components ≤ uf.components := by
  intro ops
  induction ops with
  | nil => intro uf; exact Nat.le_refl _
  | cons op ops ih =>
    intro uf
    exact Nat.le_trans (ih (step uf op)) (step_components_le uf op)

theorem rootD_new {n i : Nat} (hi : i < n) : rootD (UnionFind.new n) i = some i := by
  rw [rootD]
  show rootAux (List.range n).length (List.range n) i = some i
  rw [List.length_range]
  cases n with
  | zero => exact absurd hi (Nat.not_lt_zero i)
  | succ m => exact rootAux_of_self (List.getElem?_range hi)

theorem connected_val {uf : UnionFind} (hwf : WF uf) {p q : Nat}
    (hp : p < uf.parent.length) (hq : q < uf.parent.length) :
    (uf.connected p q).1 = some (decide (rootD uf p = rootD uf q)) := by
  obtain ⟨i, j, uf', hconn, hrp, hrq, _⟩ := connected_spec hwf hp hq
  rw [hconn, hrp, hrq]
  show some (decide (i = j)) = some (decide (some i = some j))
  by_cases hij : i = j
  · rw [decide_eq_true hij, decide_eq_true (by rw [hij])]
  · rw [decide_eq_false hij, decide_eq_false (fun hh => hij (Option.some.inj hh))]

theorem find_success_root {uf uf1 : UnionFind} {p i : Nat}
    (h : uf.find p = (some i, uf1)) : rootD uf p = some i := by
  cases h1 : rootAux uf.parent.length uf.parent p with
  | none =>
    rw [find_eq_none h1] at h
    exact Option.noConfusion (congrArg Prod.fst h)
  | some r =>
    cases h2 : compressAux uf.parent.length uf.parent p r with
    | none =>
      rw [find_eq_fail2 h1 h2] at h
      exact Option.noConfusion (congrArg Prod.fst h)
    | some par' =>
      rw [find_eq_some h1 h2] at h
      have : some r = some i := congrArg Prod.fst h
      rw [rootD, h1, this]

theorem connected_length_frame (uf : UnionFind) (p q : Nat) :
    (uf.connected p q).2.parent.length = uf.parent.length := by
  cases hf1 : uf.find p with
  | mk o1 uf1 =>
    have h1 := find_frame uf p
    rw [hf1] at h1
    cases o1 with
    | none =>
      rw [connected_eq_fail1 hf1]
      exact h1.2.2
    | some i =>
      cases hf2 : uf1.find q with
      | mk o2 uf2 =>
        have h2 := find_frame uf1 q
        rw [hf2] at h2
        cases o2 with
        | none =>
          rw [connected_eq_fail2 hf1 hf2]
          exact h2.2.2.trans h1.2.2
        | some j =>
          rw [connected_eq_some hf1 hf2]
          exact h2.2.2.trans h1.2.2

/-- C6: a freshly constructed structure `new n` has `components() = n`,
`size() = n`, `connected(i, i) = true` for every `i < n`, and
`connected(i, j) = false` for every pair `i ≠ j` below `n`. -/
theorem new_initial_state (n : Nat) :
    (UnionFind.new n).components = n ∧ (UnionFind.new n).size' = n ∧
      (∀ (i : Nat), i < n → ((UnionFind.new n).connected i i).1 = some true) ∧
      (∀ (i j : Nat), i < n → j < n → i ≠ j →
        ((UnionFind.new n).connected i j).1 = some false) := by
  have hlen : (UnionFind.new n).parent.length = n := List.length_range n
  refine ⟨rfl, List.length_range n, ?_, ?_⟩
  · intro i hi
    rw [connected_val (wf_new n) (by rw [hlen]; exact hi) (by rw [hlen]; exact hi)]
    rw [decide_eq_true rfl]
  · intro i j hi hj hij
    rw [connected_val (wf_new n) (by rw [hlen]; exact hi) (by rw [hlen]; exact hj)]
    rw [rootD_new hi, rootD_new hj]
    rw [decide_eq_false (fun hh => hij (Option.some.inj hh))]

theorem new_initial_state_witness :
    ((UnionFind.new 3).connected 1 1).1 = some true ∧
      ((UnionFind.new 3).connected 1 2).1 = some false :=
  ⟨(new_initial_state 3).2.2.1 1 (by decide),
    (new_initial_state 3).2.2.2 1 2 (by decide) (by decide) (by decide)⟩

/-- C9: `find(p)` mutates only the parent array: the `size` array, the
`components` counter and the value of `size()` are unchanged, and the
same holds for `connected(p, q)`. -/
theorem find_connected_frame_effects (uf : UnionFind) (p q : Nat) :
    (uf.find p).2.size = uf.size ∧ (uf.find p).2.components = uf.components ∧
      (uf.find p).2.size' = uf.size' ∧
      (uf.connected p q).2.size = uf.size ∧
      (uf.connected p q).2.components = uf.components ∧
      (uf.connected p q).2.size' = uf.size' :=
  ⟨(find_frame uf p).1, (find_frame uf p).2.1, (find_frame uf p).2.2,
    (connected_frame uf p q).1, (connected_frame uf p q).2,
    connected_length_frame uf p q⟩

/-- C10: the structure is deterministic: the same sequence of calls run
from the same constructor produces the same trace of return values and
the same final internal state. -/
theorem deterministic_trace (n : Nat) (ops1 ops2 : List Op) (h : ops1 = ops2) :
    trace (UnionFind.new n) ops1 = trace (UnionFind.new n) ops2 := by
  rw [h]

theorem deterministic_trace_witness :
    trace (UnionFind.new 2) [Op.union 0 1, Op.connected 0 1] =
      trace (UnionFind.new 2) [Op.union 0 1, Op.connected 0 1] :=
  deterministic_trace 2 [Op.union 0 1, Op.connected 0 1]
    [Op.union 0 1, Op.connected 0 1] rfl

/-- C2: `components()` equals `n` after `new n`; a union of two
previously-distinct sets decrements it by exactly one; a union of
already-connected elements leaves it unchanged; `find`/`connected` never
change it; and it is non-increasing along any operation sequence. -/
theorem components_counting :
    (∀ (n : Nat), (UnionFind.new n).components = n) ∧
    (∀ (uf : UnionFind), Reachable uf → ∀ (p q : Nat), p < uf.size' → q < uf.size' →
      (uf.connected p q).1 = some false →
        (uf.union p q).2.components + 1 = uf.components) ∧
    (∀ (uf : UnionFind), Reachable uf → ∀ (p q : Nat), p < uf.size' → q < uf.size' →
      (uf.connected p q).1 = some true →
        (uf.union p q).2.components = uf.components) ∧
    (∀ (uf : UnionFind) (p q : Nat), (uf.find p).2.components = uf.components ∧
      (uf.connected p q).2.components = uf.components) ∧
    (∀ (uf : UnionFind) (ops : List Op), (runOps uf ops).components ≤ uf.components) := by
  refine ⟨fun n => rfl, ?_, ?_, ?_, ?_⟩
  · intro uf hreach p q hp hq hconn
    have hwf := wf_reachable hreach
    rw [connected_val hwf hp hq] at hconn
    have hne : rootD uf p ≠ rootD uf q := by
      intro hh
      rw [decide_eq_true hh] at hconn
      exact Bool.noConfusion (Option.some.inj hconn)
    obtain ⟨uf', huni, _, _, _, _, hdiff⟩ := union_spec hwf hp hq
    rw [huni]
    exact hdiff hne
  · intro uf hreach p q hp hq hconn
    have hwf := wf_reachable hreach
    rw [connected_val hwf hp hq] at hconn
    have heq : rootD uf p = rootD uf q := by
      by_cases hh : rootD uf p = rootD uf q
      · exact hh
      · rw [decide_eq_false hh] at hconn
        exact absurd (Option.some.inj hconn) (fun x => Bool.noConfusion x)
    obtain ⟨uf', huni, _, _, _, hsame, _⟩ := union_spec hwf hp hq
    rw [huni]
    exact (hsame heq).1
  · intro uf p q
    exact ⟨(find_frame uf p).2.1, (connected_frame uf p q).2⟩
  · intro uf ops
    exact runOps_components_le ops uf

theorem components_counting_witness :
    ((UnionFind.new 2).union 0 1).2.components + 1 = (UnionFind.new 2).components ∧
      (((UnionFind.new 2).union 0 1).2.union 0 1).2.components =
        ((UnionFind.new 2).union 0 1).2.components :=
  ⟨components_counting.2.1 (UnionFind.new 2) (Reachable.new 2) 0 1
      (by decide) (by decide) (by decide),
    components_counting.2.2.1 ((UnionFind.new 2).union 0 1).2
      (Reachable.union (UnionFind.new 2) 0 1 (Reachable.new 2) (by decide) (by decide))
      0 1 (by decide) (by decide) (by decide)⟩

/-- C3: in every state reachable by in-range calls, following parent
pointers terminates from every element, and an element is a
representative (the value `find` returns for it) iff its parent entry is
a self-loop. -/
theorem reachable_forest_invariant (uf : UnionFind) (h : Reachable uf) :
    (∀ (x : Nat), x < uf.size' → (rootD uf x).isSome) ∧
    (∀ (e : Nat), e < uf.size' → ((uf.find e).1 = some e ↔ uf.parent[e]? = some e)) := by
  have hwf := wf_reachable h
  refine ⟨hwf.reach, ?_⟩
  intro e he
  obtain ⟨r, uf', hfind, hr, _⟩ := find_spec hwf he
  rw [hfind]
  constructor
  · intro hh
    have hre : r = e := Option.some.inj hh
    rw [← hre]
    exact rootAux_self hr
  · intro hh
    have hre : rootD uf e = some e := by
      rw [rootD]
      cases hfl : uf.parent.length with
      | zero =>
        have : e < uf.parent.length := he
        rw [hfl] at this
        exact absurd this (Nat.not_lt_zero e)
      | succ m => exact rootAux_of_self hh
    have : r = e := Option.some.inj (hr.symm.trans hre)
    show some r = some e
    rw [this]

theorem reachable_forest_invariant_witness :
    (rootD (UnionFind.new 3) 0).isSome ∧
      (((UnionFind.new 3).find 1).1 = some 1 ↔ (UnionFind.new 3).parent[1]? = some 1) :=
  ⟨(reachable_forest_invariant (UnionFind.new 3) (Reachable.new 3)).1 0 (by decide),
    (reachable_forest_invariant (UnionFind.new 3) (Reachable.new 3)).2 1 (by decide)⟩

/-- C7: in every reachable state, the value returned by `find` is a
representative that `find` maps to itself, leaving the state unchanged:
`find(find(p)) = find(p)`. -/
theorem find_idempotent (uf : UnionFind) (h : Reachable uf) (p : Nat) (hp : p < uf.size') :
    ∀ (r : Nat) (uf' : UnionFind), uf.find p = (some r, uf') →
      uf'.find r = (some r, uf') := by
  have hwf := wf_reachable h
  intro r uf' hfind
  obtain ⟨r0, uf'0, hfind0, hr0, hwf', hlen', _, _, hpres⟩ := find_spec hwf hp
  rw [hfind0] at hfind
  have hr : r0 = r := Option.some.inj (congrArg Prod.fst hfind)
  have huf : uf'0 = uf' := congrArg Prod.snd hfind
  rw [← hr, ← huf]
  have hrootself : uf.parent[r0]? = some r0 := rootAux_self hr0
  have hzlt : 0 < uf.parent.length := Nat.lt_of_le_of_lt (Nat.zero_le p) hp
  have hroot' : rootD uf'0 r0 = some r0 := by
    rw [hpres r0, rootD]
    cases hfl : uf.parent.length with
    | zero =>
      rw [hfl] at hzlt
      exact absurd hzlt (Nat.lt_irrefl 0)
    | succ m => exact rootAux_of_self hrootself
  have h1 : rootAux uf'0.parent.length uf'0.parent r0 = some r0 := hroot'
  have hrs : uf'0.parent[r0]? = some r0 := rootAux_self h1
  have hpos' : 0 < uf'0.parent.length := by rw [hlen']; exact hzlt
  have h2 : compressAux uf'0.parent.length uf'0.parent r0 r0 = some uf'0.parent := by
    cases hfl : uf'0.parent.length with
    | zero =>
      rw [hfl] at hpos'
      exact absurd hpos' (Nat.lt_irrefl 0)
    | succ m => rw [compressAux_succ_some hrs, if_pos rfl]
  exact find_eq_some h1 h2

theorem find_idempotent_witness :
    (((UnionFind.new 2).union 0 1).2).find 0 =
      (some 0, ((UnionFind.new 2).union 0 1).2) :=
  find_idempotent ((UnionFind.new 2).union 0 1).2
    (Reachable.union (UnionFind.new 2) 0 1 (Reachable.new 2) (by decide) (by decide))
    1 (by decide) 0 ((UnionFind.new 2).union 0 1).2 (by decide)

/-- C5: `find(p)` sets the parent of every node visited on the original
walk directly to the root it returns, and this changes no connectivity
answer. -/
theorem find_path_compression_spec (uf : UnionFind) (h : Reachable uf) (p : Nat)
    (hp : p < uf.size') :
    ∃ r c, (uf.find p).1 = some r ∧
      chainAux uf.parent.length uf.parent p = some c ∧ p ∈ c ∧
      (∀ x ∈ c, (uf.find p).2.parent[x]? = some r) ∧
      (∀ (x y : Nat), x < uf.size' → y < uf.size' →
        ((uf.find p).2.connected x y).1 = (uf.connected x y).1) := by
  have hwf := wf_reachable h
  obtain ⟨r, hr⟩ := Option.isSome_iff_exists.mp (hwf.reach p hp)
  have hr' : rootAux uf.parent.length uf.parent p = some r := hr
  obtain ⟨par', hcomp, hlen, hentry, pres, hroots⟩ := compressAux_spec hr'
  obtain ⟨c, hc⟩ := rootAux_chain hr'
  have hfind : uf.find p = (some r, { uf with parent := par' }) := find_eq_some hr' hcomp
  obtain ⟨c0, hc0⟩ := chainAux_cons hc
  refine ⟨r, c, ?_, hc, ?_, ?_, ?_⟩
  · rw [hfind]
  · rw [hc0]
    exact List.mem_cons_self p c0
  · intro x hx
    rw [hfind]
    exact compressAux_sets_chain hr' hc hcomp x hx
  · intro x y hx hy
    obtain ⟨r1, uf1, hfind1, hrp1, hwf1, hlen1, _, _, hpres1⟩ := find_spec hwf hp
    have huf1 : uf1 = { uf with parent := par' } :=
      congrArg Prod.snd (hfind1.symm.trans hfind)
    rw [hfind, ← huf1]
    rw [connected_val hwf1 (by rw [hlen1]; exact hx) (by rw [hlen1]; exact hy),
        connected_val hwf hx hy, hpres1 x, hpres1 y]

theorem find_path_compression_spec_witness :
    ∃ r c, ((((UnionFind.new 2).union 0 1).2).find 1).1 = some r ∧
      chainAux (((UnionFind.new 2).union 0 1).2).parent.length
        (((UnionFind.new 2).union 0 1).2).parent 1 = some c ∧ 1 ∈ c ∧
      (∀ x ∈ c, ((((UnionFind.new 2).union 0 1).2).find 1).2.parent[x]? = some r) ∧
      (∀ (x y : Nat), x < (((UnionFind.new 2).union 0 1).2).size' →
        y < (((UnionFind.new 2).union 0 1).2).size' →
        (((((UnionFind.new 2).union 0 1).2).find 1).2.connected x y).1 =
          ((((UnionFind.new 2).union 0 1).2).connected x y).1) :=
  find_path_compression_spec ((UnionFind.new 2).union 0 1).2
    (Reachable.union (UnionFind.new 2) 0 1 (Reachable.new 2) (by decide) (by decide))
    1 (by decide)

/-- C8: calling `union(p, q)` twice in a row yields the same component
count and the same connectivity answers as calling it once. -/
theorem union_idempotent (uf : UnionFind) (h : Reachable uf) (p q : Nat)
    (hp : p < uf.size') (hq : q < uf.size') :
    ((uf.union p q).2.union p q).2.components = (uf.union p q).2.components ∧
    (∀ (x y : Nat), x < uf.size' → y < uf.size' →
      (((uf.union p q).2.union p q).2.connected x y).1 =
        ((uf.union p q).2.connected x y).1) := by
  have hwf := wf_reachable h
  obtain ⟨uf', huni, hwf', hlen', hroots', _, _⟩ := union_spec hwf hp hq
  have hp' : p < uf'.parent.length := by rw [hlen']; exact hp
  have hq' : q < uf'.parent.length := by rw [hlen']; exact hq
  obtain ⟨uf'', huni2, hwf'', hlen'', _, hsame, _⟩ := union_spec hwf' hp' hq'
  obtain ⟨hcomp2, hpres2⟩ := hsame hroots'
  rw [huni, huni2]
  refine ⟨hcomp2, ?_⟩
  intro x y hx hy
  rw [connected_val hwf'' (by rw [hlen'', hlen']; exact hx)
        (by rw [hlen'', hlen']; exact hy),
      connected_val hwf' (by rw [hlen']; exact hx) (by rw [hlen']; exact hy),
      hpres2 x, hpres2 y]

theorem union_idempotent_witness :
    ((((UnionFind.new 3).union 0 1).2.union 0 1).2).components =
        (((UnionFind.new 3).union 0 1).2).components ∧
      (((((UnionFind.new 3).union 0 1).2.union 0 1).2).connected 0 2).1 =
        ((((UnionFind.new 3).union 0 1).2).connected 0 2).1 :=
  ⟨(union_idempotent (UnionFind.new 3) (Reachable.new 3) 0 1 (by decide) (by decide)).1,
    (union_idempotent (UnionFind.new 3) (Reachable.new 3) 0 1 (by decide) (by decide)).2
      0 2 (by decide) (by decide)⟩

/-- C1: after `union(p, q)` computes roots `i ≠ j`, the root with
strictly smaller size is attached under the other root and the
surviving root's size grows by the absorbed root's size; on a size tie
(`size[j] ≤ size[i]` covers it) `j` is attached under `i`. -/
theorem union_by_size_attach {uf uf1 uf2 : UnionFind} {p q i j si sj : Nat}
    (hf1 : uf.find p = (some i, uf1)) (hf2 : uf1.find q = (some j, uf2)) (hij : i ≠ j)
    (hsi : uf2.size[i]? = some si) (hsj : uf2.size[j]? = some sj) :
    (uf.union p q).1 = some () ∧
    (si < sj → (uf.union p q).2.parent[i]? = some j ∧
      (uf.union p q).2.size[j]? = some (sj + si) ∧
      (uf.union p q).2.components = uf2.components - 1) ∧
    (sj ≤ si → (uf.union p q).2.parent[j]? = some i ∧
      (uf.union p q).2.size[i]? = some (si + sj) ∧
      (uf.union p q).2.components = uf2.components - 1) := by
  have hilt0 : i < uf.parent.length := rootAux_lt (find_success_root hf1)
  have hjlt1 : j < uf1.parent.length := rootAux_lt (find_success_root hf2)
  have hlen1 : uf1.parent.length = uf.parent.length := by
    have h0 := (find_frame uf p).2.2
    rw [hf1] at h0
    exact h0
  have hlen2 : uf2.parent.length = uf1.parent.length := by
    have h0 := (find_frame uf1 q).2.2
    rw [hf2] at h0
    exact h0
  have hilt : i < uf2.parent.length := by rw [hlen2, hlen1]; exact hilt0
  have hjlt : j < uf2.parent.length := by rw [hlen2]; exact hjlt1
  have hiszlt : i < uf2.size.length := (List.getElem?_eq_some.mp hsi).1
  have hjszlt : j < uf2.size.length := (List.getElem?_eq_some.mp hsj).1
  rw [union_eq_merge hf1 hf2 hij hsi hsj]
  refine ⟨rfl, ?_, ?_⟩
  · intro hlt
    rw [if_pos hlt]
    exact ⟨List.getElem?_set_self hilt, List.getElem?_set_self hjszlt, rfl⟩
  · intro hle
    have hnlt : ¬si < sj := Nat.not_lt_of_le hle
    rw [if_neg hnlt]
    exact ⟨List.getElem?_set_self hjlt, List.getElem?_set_self hiszlt, rfl⟩

theorem union_by_size_attach_witness :
    ((UnionFind.new 2).union 0 1).1 = some () ∧
      ((UnionFind.new 2).union 0 1).2.parent[1]? = some 0 ∧
      ((UnionFind.new 2).union 0 1).2.size[0]? = some 2 ∧
      ((UnionFind.new 2).union 0 1).2.components = 1 := by
  have h := @union_by_size_attach (UnionFind.new 2) (UnionFind.new 2) (UnionFind.new 2)
    0 1 0 1 1 1 (by decide) (by decide) (by decide) (by decide) (by decide)
  exact ⟨h.1, (h.2.2 (by decide)).1, (h.2.2 (by decide)).2.1, (h.2.2 (by decide)).2.2⟩

/-- C4 counterexample: in the reachable state built by
`new 4; union 0 1; union 2 3; union 1 3`, the call `union 3 4` has its
first argument in range and its second out of range; it fails, yet the
parent array after the failing call differs from the one before it (the
path compression performed by `find 3` persisted). -/
theorem union_partial_mutation_counterexample :
    ((((((UnionFind.new 4).union 0 1).2.union 2 3).2.union 1 3).2).union 3 4).1 = none ∧
    3 < (((((UnionFind.new 4).union 0 1).2.union 2 3).2.union 1 3).2).size' ∧
    ¬ 4 < (((((UnionFind.new 4).union 0 1).2.union 2 3).2.union 1 3).2).size' ∧
    ((((((UnionFind.new 4).union 0 1).2.union 2 3).2.union 1 3).2).union 3 4).2.parent ≠
      (((((UnionFind.new 4).union 0 1).2.union 2 3).2.union 1 3).2).parent := by
  decide

/-- C4 amended: a failing `find` leaves the state untouched; a failing
`union` or `connected` never touches the `size` array or the
`components` counter, and on a reachable state a failing `union` leaves
every connectivity answer unchanged — but the parent array may keep the
path-compression writes of the `find(p)` that preceded the panic. -/
theorem failing_ops_frame :
    (∀ (uf : UnionFind) (p : Nat), (uf.find p).1 = none → (uf.find p).2 = uf) ∧
    (∀ (uf : UnionFind) (p q : Nat), (uf.union p q).1 = none →
      (uf.union p q).2.size = uf.size ∧ (uf.union p q).2.components = uf.components) ∧
    (∀ (uf : UnionFind) (p q : Nat), (uf.connected p q).1 = none →
      (uf.connected p q).2.size = uf.size ∧
        (uf.connected p q).2.components = uf.components) ∧
    (∀ (uf : UnionFind), Reachable uf → ∀ (p q : Nat), (uf.union p q).1 = none →
      ∀ (x y : Nat), x < uf.size' → y < uf.size' →
        ((uf.union p q).2.connected x y).1 = (uf.connected x y).1) := by
  refine ⟨fun uf p => find_fail, fun uf p q => union_fail_frame,
    fun uf p q _ => connected_frame uf p q, ?_⟩
  intro uf hreach p q hfail x y hx hy
  have hwf := wf_reachable hreach
  by_cases hp : p < uf.parent.length
  · by_cases hq : q < uf.parent.length
    · obtain ⟨uf', huni, _⟩ := union_spec hwf hp hq
      rw [huni] at hfail
      exact Option.noConfusion hfail
    · obtain ⟨i, uf1, hfind1, _, hwf1, hlen1, _, _, hpres1⟩ := find_spec hwf hp
      have hf2 : uf1.find q = (none, uf1) :=
        find_out_of_range (by rw [hlen1]; exact Nat.le_of_not_lt hq)
      rw [union_eq_fail2 hfind1 hf2]
      rw [connected_val hwf1 (by rw [hlen1]; exact hx) (by rw [hlen1]; exact hy),
          connected_val hwf hx hy, hpres1 x, hpres1 y]
  · rw [union_eq_fail1 (find_out_of_range (Nat.le_of_not_lt hp))]

theorem failing_ops_frame_witness :
    ((UnionFind.new 2).find 5).2 = UnionFind.new 2 ∧
      ((UnionFind.new 2).union 0 5).2.size = (UnionFind.new 2).size ∧
      ((UnionFind.new 2).union 0 5).2.components = (UnionFind.new 2).components ∧
      (((UnionFind.new 2).union 0 5).2.connected 0 1).1 =
        ((UnionFind.new 2).connected 0 1).1 :=
  ⟨failing_ops_frame.1 (UnionFind.new 2) 5 (by decide),
    (failing_ops_frame.2.1 (UnionFind.new 2) 0 5 (by decide)).1,
    (failing_ops_frame.2.1 (UnionFind.new 2) 0 5 (by decide)).2,
    failing_ops_frame.2.2.2 (UnionFind.new 2) (Reachable.new 2) 0 5 (by decide)
      0 1 (by decide) (by decide)⟩
